import Mathlib

/-!
Verification of the poll mutation guard and validation and sanitization
utilities of the alx-polly repository.

The definitions below are a shallow embedding of the TypeScript source:

* src/app/lib/utils/security.ts   (the SecurityUtils object)
* src/app/lib/actions/poll-actions.ts  (createPoll, updatePoll, deletePoll,
  submitVote)

Strings are modelled as Lean strings (lists of Unicode code points); string
lengths are code-point counts, which agree with JavaScript lengths on all
basic-multilingual-plane text.  JavaScript regular expression replacement is
embedded as explicit left-to-right scanners that mirror the semantics of the
concrete patterns used by the source (each scanner is documented next to the
pattern it embeds).  The external Supabase backend is modelled by explicit
parameters: the resolved auth identity (an Option), the stored rows (lists),
and the error reported by each backend call (an Option String).
-/

namespace AlxPolly

/-! ## Character classes used by the JavaScript regular expressions -/

/-- The character set matched by the JavaScript regex class backslash-s
(WhiteSpace and LineTerminator code points): tab, LF, VT, FF, CR, space,
NBSP, Ogham space mark, the U+2000..U+200A range, LS, PS, NNBSP, MMSP,
ideographic space and the BOM. -/
def isWsJS (c : Char) : Bool :=
  c = '\t' ∨ c = '\n' ∨ c = Char.ofNat 11 ∨ c = Char.ofNat 12 ∨
  c = '\r' ∨ c = ' ' ∨ c = Char.ofNat 0xa0 ∨ c = Char.ofNat 0x1680 ∨
  (Char.ofNat 0x2000 ≤ c ∧ c ≤ Char.ofNat 0x200a) ∨
  c = Char.ofNat 0x2028 ∨ c = Char.ofNat 0x2029 ∨ c = Char.ofNat 0x202f ∨
  c = Char.ofNat 0x205f ∨ c = Char.ofNat 0x3000 ∨ c = Char.ofNat 0xfeff

/-- The character set matched by the JavaScript regex class backslash-w:
ASCII letters, ASCII digits and the underscore (Char.isAlpha and
Char.isDigit test exactly the ASCII ranges). -/
def isWordChar (c : Char) : Bool :=
  c.isAlpha ∨ c.isDigit ∨ c = '_'

/-- JavaScript String.prototype.trim removes the same set of code points as
the regex class backslash-s from both ends of a string. -/
def jsTrim (s : String) : String :=
  ⟨((s.data.dropWhile isWsJS).reverse.dropWhile isWsJS).reverse⟩

/-! ## SecurityUtils.isValidEmail (src/app/lib/utils/security.ts)

Source: a test of the anchored regex
caret [^ backslash-s @]+ @ [^ backslash-s @]+ backslash-dot [^ backslash-s @]+ dollar.
The local part is a maximal run of the class (the class excludes the at
sign, so the greedy run is forced to stop exactly at the first at sign);
the rest of the string after the at sign must consist of class characters
only and must contain a dot that is neither its first nor its last
character. -/

/-- The regex character class `[^ \s @]`: not JavaScript whitespace and not
the at sign. -/
def emailChar (c : Char) : Bool :=
  !isWsJS c && c ≠ '@'

/-- True iff the list contains a dot at a position other than the last
position. -/
def dotNotLast : List Char → Bool
  | [] => false
  | [_] => false
  | c :: rest => c = '.' || dotNotLast rest

/-- True iff the list contains a dot at a position that is neither the
first nor the last position. -/
def hasInteriorDot : List Char → Bool
  | [] => false
  | _ :: rest => dotNotLast rest

/-- Embeds SecurityUtils.isValidEmail: test of the anchored regex described
above.  The greedy local-part run is the longest class prefix; the
character ending it must be the at sign; the rest must be class characters
containing an interior dot. -/
def isValidEmail (email : String) : Bool :=
  match email.data.dropWhile emailChar with
  | c :: domain =>
      c = '@' && !(email.data.takeWhile emailChar).isEmpty &&
        domain.all emailChar && hasInteriorDot domain
  | [] => false

/-- The email shape stated by the spec for isValidEmailShape: a run of
non-whitespace characters, an at sign, a run of non-whitespace characters,
a dot, a run of non-whitespace characters, with the at sign occurring
exactly once in the whole string. -/
def emailShapeSpec (s : String) : Prop :=
  ∃ A B C : List Char,
    s.data = A ++ '@' :: (B ++ '.' :: C) ∧
    A ≠ [] ∧ B ≠ [] ∧ C ≠ [] ∧
    (∀ c ∈ A ++ B ++ C, isWsJS c = false) ∧
    s.data.count '@' = 1

/-! ## SecurityUtils.sanitizeHTML (src/app/lib/utils/security.ts)

Four global regex replacements applied in order; each is embedded as a
left-to-right scanner with fuel (the fuel is the length of the scanned
list, which strictly bounds the number of scanning steps, so the zero-fuel
fallback is never reached). -/

/-- Case-insensitive prefix test using the ASCII case folding that the
JavaScript i-flag performs on these ASCII-only patterns. -/
def ciStartsWith : List Char → List Char → Bool
  | [], _ => true
  | _ :: _, [] => false
  | p :: ps, c :: cs => p.toLower = c.toLower && ciStartsWith ps cs

/-- Scans for the first case-insensitive occurrence of the closing
script tag and returns the suffix that follows it, if any. -/
def dropAfterCloseScript : List Char → Option (List Char)
  | [] => none
  | c :: rest =>
      if ciStartsWith "</script>".data (c :: rest) then
        some ((c :: rest).drop 9)
      else dropAfterCloseScript rest

/-- Tries to match, at the head of the list, one occurrence of the script
block pattern: a case-insensitive open script tag name followed by a word
boundary, then everything through the first case-insensitive closing
script tag.  Returns the remainder after the match. -/
def matchScriptAt (l : List Char) : Option (List Char) :=
  if ciStartsWith "<script".data l then
    match l.drop 7 with
    | [] => none
    | c :: rest => if isWordChar c then none else dropAfterCloseScript (c :: rest)
  else none

/-- One global replacement of the script block pattern by the empty string:
at each position, either remove a match and continue after it, or keep the
character and continue. -/
def stripScriptFuel : Nat → List Char → List Char
  | 0, l => l
  | _ + 1, [] => []
  | fuel + 1, c :: rest =>
      match matchScriptAt (c :: rest) with
      | some rem => stripScriptFuel fuel rem
      | none => c :: stripScriptFuel fuel rest

/-- Global removal of script blocks (first replacement of sanitizeHTML and
of the inline sanitization in createPoll). -/
def stripScript (l : List Char) : List Char :=
  stripScriptFuel l.length l

/-- Returns the suffix after the first greater-than sign, if any. -/
def dropThroughGt : List Char → Option (List Char)
  | [] => none
  | c :: rest => if c = '>' then some rest else dropThroughGt rest

/-- One global replacement of the tag pattern (a less-than sign, a run of
characters other than greater-than, a greater-than sign) by the empty
string. -/
def stripTagsFuel : Nat → List Char → List Char
  | 0, l => l
  | _ + 1, [] => []
  | fuel + 1, c :: rest =>
      if c = '<' then
        match dropThroughGt rest with
        | some rem => stripTagsFuel fuel rem
        | none => c :: stripTagsFuel fuel rest
      else c :: stripTagsFuel fuel rest

/-- Global removal of angle-bracket tags (second replacement of
sanitizeHTML and of the inline sanitization in createPoll). -/
def stripTags (l : List Char) : List Char :=
  stripTagsFuel l.length l

/-- One global replacement of the case-insensitive literal javascript
scheme (the word javascript followed by a colon, eleven characters) by the
empty string. -/
def stripJsSchemeFuel : Nat → List Char → List Char
  | 0, l => l
  | _ + 1, [] => []
  | fuel + 1, c :: rest =>
      if ciStartsWith "javascript:".data (c :: rest) then
        stripJsSchemeFuel fuel ((c :: rest).drop 11)
      else c :: stripJsSchemeFuel fuel rest

/-- Global removal of the javascript scheme (third replacement of
sanitizeHTML). -/
def stripJsScheme (l : List Char) : List Char :=
  stripJsSchemeFuel l.length l

/-- Tries to match, at the head of the list, one occurrence of the inline
event handler pattern: case-insensitive letters o and n, a nonempty
greedy run of word characters, optional whitespace, an equals sign.
Returns the remainder after the match. -/
def matchEventAt (l : List Char) : Option (List Char) :=
  match l with
  | c1 :: c2 :: rest =>
      if c1.toLower = 'o' ∧ c2.toLower = 'n' then
        match rest.takeWhile isWordChar with
        | [] => none
        | _ :: _ =>
            match (rest.dropWhile isWordChar).dropWhile isWsJS with
            | '=' :: rem => some rem
            | _ => none
      else none
  | _ => none

/-- One global replacement of the inline event handler pattern by the
empty string. -/
def stripEventsFuel : Nat → List Char → List Char
  | 0, l => l
  | _ + 1, [] => []
  | fuel + 1, c :: rest =>
      match matchEventAt (c :: rest) with
      | some rem => stripEventsFuel fuel rem
      | none => c :: stripEventsFuel fuel rest

/-- Global removal of inline event handler attribute patterns (fourth
replacement of sanitizeHTML). -/
def stripEvents (l : List Char) : List Char :=
  stripEventsFuel l.length l

/-- Embeds SecurityUtils.sanitizeHTML: the four global replacements in
source order.  The spec names this operation sanitizeMarkup. -/
def sanitizeHTML (input : String) : String :=
  ⟨stripEvents (stripJsScheme (stripTags (stripScript input.data)))⟩

/-- Embeds the inline sanitization performed by createPoll in
src/app/lib/actions/poll-actions.ts: only the script block removal and the
tag removal (the first two replacements of sanitizeHTML); the javascript
scheme removal and the event handler removal are not applied there. -/
def sanitizeBasic (input : String) : String :=
  ⟨stripTags (stripScript input.data)⟩

/-! ## SecurityUtils.sanitizeFileName (src/app/lib/utils/security.ts)

Two global replacements: every character outside ASCII letters, digits,
dot and hyphen becomes an underscore; then every (non-overlapping,
left-to-right) occurrence of two consecutive dots becomes one
underscore. -/

/-- The character class kept by the first replacement of sanitizeFileName:
ASCII letters, ASCII digits, dot and hyphen. -/
def fileNameKeepChar (c : Char) : Bool :=
  c.isAlpha ∨ c.isDigit ∨ c = '.' ∨ c = '-'

/-- The characters allowed in the output of sanitizeFileName: the kept
class plus the underscore used as the replacement character. -/
def fileNameOutChar (c : Char) : Bool :=
  c.isAlpha ∨ c.isDigit ∨ c = '.' ∨ c = '-' ∨ c = '_'

/-- Global replacement of two consecutive dots by one underscore, scanning
left to right and resuming after each replacement, exactly as a
JavaScript global regex replace does. -/
def replaceDotDot : List Char → List Char
  | [] => []
  | [c] => [c]
  | c1 :: c2 :: rest =>
      if c1 = '.' ∧ c2 = '.' then '_' :: replaceDotDot rest
      else c1 :: replaceDotDot (c2 :: rest)

/-- True iff the list contains two consecutive dots. -/
def hasDotDot : List Char → Bool
  | [] => false
  | [_] => false
  | c1 :: c2 :: rest => (c1 = '.' && c2 = '.') || hasDotDot (c2 :: rest)

/-- Embeds SecurityUtils.sanitizeFileName: the per-character class
replacement followed by the double-dot replacement. -/
def sanitizeFileName (filename : String) : String :=
  ⟨replaceDotDot (filename.data.map fun c =>
    if fileNameKeepChar c then c else '_')⟩

/-! ## SecurityUtils.checkRateLimit (src/app/lib/utils/security.ts)

The ephemeral sessionStorage is modelled as a total map from keys to the
stored timestamp list (a missing key reads as the empty list, matching the
source default of the empty JSON array).  Timestamps are integers
(Date.now values).  The source filters out entries outside the window,
denies when the remaining count reaches the maximum without writing, and
otherwise appends the current time and allows. -/

/-- Embeds SecurityUtils.checkRateLimit.  Returns the decision and the
updated storage. -/
def checkRateLimit (key : String) (maxAttempts : Nat) (windowMs : Int)
    (now : Int) (store : String → List Int) :
    Bool × (String → List Int) :=
  if maxAttempts ≤ ((store key).filter fun t => now - t < windowMs).length then
    (false, store)
  else
    (true, fun k =>
      if k = key then ((store key).filter fun t => now - t < windowMs) ++ [now]
      else store k)

/-- Runs checkRateLimit once per listed call time, threading the storage,
and collects the decisions. -/
def runCalls (key : String) (maxAttempts : Nat) (windowMs : Int) :
    List Int → (String → List Int) → List Bool
  | [], _ => []
  | t :: ts, store =>
      (checkRateLimit key maxAttempts windowMs t store).1 ::
        runCalls key maxAttempts windowMs ts
          (checkRateLimit key maxAttempts windowMs t store).2

/-! ## Data model (src/app/lib/actions/poll-actions.ts)

The Supabase backend is an external collaborator; its rows and the
resolved auth identity are passed in explicitly.  Poll ids are assigned by
the backend, so createPoll takes the id of the row the backend would
assign as a parameter. -/

/-- The resolved authenticated identity (the user object returned by
supabase.auth.getUser), reduced to the only field the poll actions read. -/
structure Identity where
  id : String
deriving Repr, DecidableEq

/-- A row of the polls table, reduced to the columns the poll actions read
and write. -/
structure Poll where
  id : String
  user_id : String
  question : String
  options : List String
deriving Repr, DecidableEq

/-- A row of the votes table. -/
structure Vote where
  poll_id : String
  user_id : Option String
  option_index : Int
deriving Repr, DecidableEq

/-- The failure taxonomy of the poll actions.  The source returns bare
message strings; the constructor records which return site of the source
produced the message: validation for the input checks, auth for the
must-be-logged-in returns, authz for the ownership rejection in
deletePoll, backend for messages surfaced verbatim from the Supabase
client. -/
inductive PollError where
  | validation : String → PollError
  | auth : String → PollError
  | authz : String → PollError
  | backend : String → PollError
deriving Repr, DecidableEq

/-- Keeps the first occurrence of each string, as the JavaScript idiom
filter of self.indexOf(opt) equal to index does on the options array. -/
def dedupKeepFirst (seen : List String) : List String → List String
  | [] => []
  | x :: xs =>
      if x ∈ seen then dedupKeepFirst seen xs
      else x :: dedupKeepFirst (x :: seen) xs

/-! ## createPoll -/

/-- Result of createPoll: the returned error field, the polls table after
the action, and whether the backend insert was called. -/
structure CreateOutcome where
  error : Option PollError
  polls : List Poll
  insertCalled : Bool
deriving Repr, DecidableEq

/-- Embeds createPoll.  Parameters beyond the form fields: the resolved
identity and the error of the getUser call, the current polls table, the
error reported by the backend insert (none when the insert succeeds), and
the id the backend assigns to the new row.  The form field extraction
filter of truthy values keeps exactly the nonempty option strings.  The
first source check (falsy question, or whitespace-only question) is one
condition here because a string is falsy exactly when it is empty, and the
empty string also trims to length zero. -/
def createPoll (user : Option Identity) (userErr : Option String)
    (db : List Poll) (insertErr : Option String) (newId : String)
    (question : String) (rawOptions : List String) : CreateOutcome :=
  let options := rawOptions.filter fun o => o ≠ ""
  if (jsTrim question).length = 0 then
    ⟨some (.validation "Please provide a valid question."), db, false⟩
  else if 500 < (jsTrim question).length then
    ⟨some (.validation "Question must be 500 characters or less."), db, false⟩
  else if options.length < 2 then
    ⟨some (.validation "Please provide at least two options."), db, false⟩
  else if 10 < options.length then
    ⟨some (.validation "Maximum 10 options allowed."), db, false⟩
  else
    let validOptions :=
      dedupKeepFirst []
        ((options.filter fun o => 0 < (jsTrim o).length).map jsTrim)
    if validOptions.length < 2 then
      ⟨some (.validation "Please provide at least two unique, non-empty options."),
        db, false⟩
    else if validOptions.any fun o => 200 < o.length then
      ⟨some (.validation "Each option must be 200 characters or less."), db, false⟩
    else
      let sanitizedQuestion := sanitizeBasic (jsTrim question)
      let sanitizedOptions := validOptions.map sanitizeBasic
      match userErr with
      | some m => ⟨some (.backend m), db, false⟩
      | none =>
          match user with
          | none => ⟨some (.auth "You must be logged in to create a poll."), db, false⟩
          | some u =>
              match insertErr with
              | some m => ⟨some (.backend m), db, true⟩
              | none =>
                  ⟨none,
                    db ++ [⟨newId, u.id, sanitizedQuestion, sanitizedOptions⟩],
                    true⟩

/-! ## updatePoll -/

/-- Result of updatePoll: the returned error field, the polls table after
the action, and the question and options forwarded to the backend update
(none when no update call was issued). -/
structure UpdateOutcome where
  error : Option PollError
  polls : List Poll
  updateArgs : Option (String × List String)
deriving Repr, DecidableEq

/-- Embeds updatePoll.  The single backend update is filtered by the poll
id and by the caller id in the same conditional update, so rows matching
the id but owned by someone else are left untouched.  The validation is
only the falsy-question check and the option count check: the forwarded
question and options are not trimmed, capped, sanitized or
de-duplicated. -/
def updatePoll (user : Option Identity) (userErr : Option String)
    (db : List Poll) (updateErr : Option String) (pollId : String)
    (question : String) (rawOptions : List String) : UpdateOutcome :=
  let options := rawOptions.filter fun o => o ≠ ""
  if question = "" ∨ options.length < 2 then
    ⟨some (.validation "Please provide a question and at least two options."),
      db, none⟩
  else
    match userErr with
    | some m => ⟨some (.backend m), db, none⟩
    | none =>
        match user with
        | none => ⟨some (.auth "You must be logged in to update a poll."), db, none⟩
        | some u =>
            let newDb := db.map fun p =>
              if p.id = pollId ∧ p.user_id = u.id then
                { p with question := question, options := options }
              else p
            match updateErr with
            | some m => ⟨some (.backend m), db, some (question, options)⟩
            | none => ⟨none, newDb, some (question, options)⟩

/-! ## deletePoll -/

/-- Result of deletePoll: the returned error field, the polls table after
the action, and whether the backend delete was called. -/
structure DeleteOutcome where
  error : Option PollError
  polls : List Poll
  deleteCalled : Bool
deriving Repr, DecidableEq

/-- Embeds deletePoll.  The ownership guard is fetch-then-compare: the
single row with the requested id is fetched, and the action is rejected
before any delete call when no row exists or the fetched owner id differs
from the caller id.  The getUser error field is not destructured by the
source here, so only the resolved user is a parameter. -/
def deletePoll (user : Option Identity) (db : List Poll)
    (deleteErr : Option String) (id : String) : DeleteOutcome :=
  match user with
  | none => ⟨some (.auth "You must be logged in to delete a poll."), db, false⟩
  | some u =>
      match db.find? fun p => p.id = id with
      | none => ⟨some (.authz "You can only delete your own polls."), db, false⟩
      | some poll =>
          if poll.user_id ≠ u.id then
            ⟨some (.authz "You can only delete your own polls."), db, false⟩
          else
            match deleteErr with
            | some m => ⟨some (.backend m), db, true⟩
            | none => ⟨none, db.filter (fun p => ¬ p.id = id), true⟩

/-! ## submitVote -/

/-- Result of submitVote: the returned error field, the votes table after
the action, and whether the backend insert was called. -/
structure VoteOutcome where
  error : Option PollError
  votes : List Vote
  insertCalled : Bool
deriving Repr, DecidableEq

/-- Embeds submitVote.  The source resolves the user but never requires
one (the voter id column receives null when no identity is resolved), and
it performs no lookup of the referenced poll and no check of optionIndex
against anything: the raw index is inserted as given. -/
def submitVote (user : Option Identity) (votes : List Vote)
    (insertErr : Option String) (pollId : String) (optionIndex : Int) :
    VoteOutcome :=
  let newVote : Vote := ⟨pollId, user.map Identity.id, optionIndex⟩
  match insertErr with
  | some m => ⟨some (.backend m), votes, true⟩
  | none => ⟨none, votes ++ [newVote], true⟩

/-- The option normalization named by the spec for createPoll: trim each
entry, drop the entries that are empty after trimming, and keep the first
occurrence of each distinct string. -/
def normalizeOptions (l : List String) : List String :=
  dedupKeepFirst [] ((l.map jsTrim).filter fun o => o ≠ "")

/-! ## Supporting lemmas -/

/-- A string has length zero exactly when it is the empty string. -/
theorem string_length_eq_zero {s : String} : s.length = 0 ↔ s = "" := by
  rw [String.ext_iff]
  exact List.length_eq_zero

/-- Any list decomposition exhibiting two consecutive dots makes hasDotDot
true. -/
theorem hasDotDot_of_decomp (u v l : List Char)
    (h : l = u ++ '.' :: '.' :: v) : hasDotDot l = true := by
  subst h
  induction u with
  | nil => simp [hasDotDot]
  | cons a u ih =>
      rw [List.cons_append]
      cases hu : u ++ '.' :: '.' :: v with
      | nil => simp at hu
      | cons b w =>
          simp only [hasDotDot, Bool.or_eq_true]
          right
          rw [hu] at ih
          exact ih

/-- hasDotDot is exactly the presence of two consecutive dots. -/
theorem hasDotDot_iff (l : List Char) :
    hasDotDot l = true ↔ ∃ u v, l = u ++ '.' :: '.' :: v := by
  constructor
  · induction l using hasDotDot.induct with
    | case1 => intro h; cases h
    | case2 c => intro h; cases h
    | case3 c1 c2 rest ih =>
        intro h
        simp only [hasDotDot, Bool.or_eq_true, Bool.and_eq_true,
          decide_eq_true_eq] at h
        rcases h with ⟨rfl, rfl⟩ | h2
        · exact ⟨[], rest, rfl⟩
        · rcases ih h2 with ⟨u, v, he⟩
          exact ⟨c1 :: u, v, by simp [he]⟩
  · rintro ⟨u, v, he⟩
    exact hasDotDot_of_decomp u v l he

/-- The head of replaceDotDot of a nonempty list is the original head or
the replacement underscore. -/
theorem replaceDotDot_cons_head (c : Char) (rest : List Char) :
    ∃ d t, replaceDotDot (c :: rest) = d :: t ∧ (d = c ∨ d = '_') := by
  cases rest with
  | nil => exact ⟨c, [], rfl, Or.inl rfl⟩
  | cons c2 r =>
      by_cases h : c = '.' ∧ c2 = '.'
      · exact ⟨'_', replaceDotDot r, by simp [replaceDotDot, h], Or.inr rfl⟩
      · exact ⟨c, replaceDotDot (c2 :: r), by simp [replaceDotDot, h], Or.inl rfl⟩

/-- replaceDotDot leaves no two consecutive dots behind. -/
theorem hasDotDot_replaceDotDot (l : List Char) :
    hasDotDot (replaceDotDot l) = false := by
  induction l using replaceDotDot.induct with
  | case1 => rfl
  | case2 c => rfl
  | case3 c1 c2 rest h ih =>
      simp only [replaceDotDot, if_pos h]
      cases hr : replaceDotDot rest with
      | nil => rfl
      | cons d t =>
          have : hasDotDot ('_' :: d :: t) = hasDotDot (d :: t) := by
            simp [hasDotDot]
          rw [this, ← hr]
          exact ih
  | case4 c1 c2 rest h ih =>
      simp only [replaceDotDot, if_neg h]
      rcases replaceDotDot_cons_head c2 rest with ⟨d, t, hr, hd⟩
      rw [hr]
      have htail : hasDotDot (d :: t) = false := by rw [← hr]; exact ih
      have hhead : (decide (c1 = '.') && decide (d = '.')) = false := by
        rcases hd with rfl | rfl
        · by_cases h1 : c1 = '.'
          · have h2 : ¬ d = '.' := fun hc => h ⟨h1, hc⟩
            simp [h2]
          · simp [h1]
        · simp
      simp [hasDotDot, hhead, htail]

/-- replaceDotDot preserves any character predicate that holds of the
underscore. -/
theorem replaceDotDot_all (p : Char → Bool) (hu : p '_' = true) :
    ∀ l : List Char, l.all p = true → (replaceDotDot l).all p = true := by
  intro l
  induction l using replaceDotDot.induct with
  | case1 => intro _; rfl
  | case2 c => intro h; exact h
  | case3 c1 c2 rest h ih =>
      intro hl
      simp only [replaceDotDot, if_pos h]
      rw [List.all_cons, Bool.and_eq_true] at hl
      rw [List.all_cons, Bool.and_eq_true] at hl
      rw [List.all_cons, Bool.and_eq_true]
      exact ⟨hu, ih hl.2.2⟩
  | case4 c1 c2 rest h ih =>
      intro hl
      simp only [replaceDotDot, if_neg h]
      rw [List.all_cons, Bool.and_eq_true] at hl
      rw [List.all_cons, Bool.and_eq_true]
      exact ⟨hl.1, ih hl.2⟩

/-- takeWhile and dropWhile of a list made of a run satisfying the
predicate followed by an element that does not. -/
theorem takeWhile_dropWhile_split (p : Char → Bool) (A : List Char) (c : Char)
    (R : List Char) (hA : ∀ a ∈ A, p a = true) (hc : p c = false) :
    (A ++ c :: R).takeWhile p = A ∧ (A ++ c :: R).dropWhile p = c :: R := by
  induction A with
  | nil =>
      constructor
      · simp [List.takeWhile_cons, hc]
      · simp [List.dropWhile_cons, hc]
  | cons a A ih =>
      have ha : p a = true := hA a (List.mem_cons_self a A)
      have ih2 := ih fun x hx => hA x (List.mem_cons_of_mem a hx)
      constructor
      · rw [List.cons_append, List.takeWhile_cons_of_pos ha, ih2.1]
      · rw [List.cons_append, List.dropWhile_cons_of_pos ha, ih2.2]

/-- dotNotLast is exactly the presence of a dot at a non-final position. -/
theorem dotNotLast_iff (l : List Char) :
    dotNotLast l = true ↔ ∃ u v, l = u ++ '.' :: v ∧ v ≠ [] := by
  induction l using dotNotLast.induct with
  | case1 =>
      constructor
      · intro h; cases h
      · rintro ⟨u, v, he, _⟩
        exact absurd he.symm (List.append_ne_nil_of_right_ne_nil u (by simp))
  | case2 c =>
      constructor
      · intro h; cases h
      · rintro ⟨u, v, he, hv⟩
        have hlen := congrArg List.length he
        have hpos : 0 < v.length := List.length_pos.mpr hv
        simp [List.length_append] at hlen
        omega
  | case3 c rest hne ih =>
      cases rest with
      | nil => exact absurd rfl hne
      | cons b w =>
          constructor
          · intro h
            simp only [dotNotLast, Bool.or_eq_true, decide_eq_true_eq] at h
            rcases h with rfl | h2
            · exact ⟨[], b :: w, rfl, by simp⟩
            · rcases ih.mp h2 with ⟨u, v, he, hv⟩
              exact ⟨c :: u, v, by simp [he], hv⟩
          · rintro ⟨u, v, he, hv⟩
            cases u with
            | nil =>
                simp only [List.nil_append] at he
                injection he with h1 h2
                subst h1
                simp [dotNotLast]
            | cons a u2 =>
                rw [List.cons_append] at he
                injection he with h1 h2
                simp only [dotNotLast, Bool.or_eq_true]
                right
                exact ih.mpr ⟨u2, v, h2, hv⟩

/-- hasInteriorDot is exactly the existence of a split around a dot with
nonempty sides. -/
theorem hasInteriorDot_iff (l : List Char) :
    hasInteriorDot l = true ↔ ∃ B C, l = B ++ '.' :: C ∧ B ≠ [] ∧ C ≠ [] := by
  cases l with
  | nil =>
      constructor
      · intro h; cases h
      · rintro ⟨B, C, he, hB, _⟩
        exact absurd he.symm (List.append_ne_nil_of_right_ne_nil B (by simp))
  | cons d rest =>
      rw [show hasInteriorDot (d :: rest) = dotNotLast rest from rfl,
        dotNotLast_iff]
      constructor
      · rintro ⟨u, v, he, hv⟩
        exact ⟨d :: u, v, by simp [he], by simp, hv⟩
      · rintro ⟨B, C, he, hB, hC⟩
        cases B with
        | nil => exact absurd rfl hB
        | cons b B2 =>
            injection he with h1 h2
            exact ⟨B2, C, h2, hC⟩

/-- The at sign is not an email class character. -/
theorem emailChar_at : emailChar '@' = false := by decide

/-- Introduction rule for the email class. -/
theorem emailChar_of (c : Char) (hws : isWsJS c = false) (hne : c ≠ '@') :
    emailChar c = true := by
  simp [emailChar, hws, hne]

/-- Elimination rule for the email class. -/
theorem isWsJS_of_emailChar (c : Char) (h : emailChar c = true) :
    isWsJS c = false ∧ c ≠ '@' := by
  simp only [emailChar, Bool.and_eq_true, Bool.not_eq_true', decide_eq_true_eq] at h
  exact h

/-- An accepted string has the spec shape. -/
theorem isValidEmail_imp_shape (s : String) (h : isValidEmail s = true) :
    emailShapeSpec s := by
  unfold isValidEmail at h
  cases hd : s.data.dropWhile emailChar with
  | nil => rw [hd] at h; cases h
  | cons x domain =>
      rw [hd] at h
      simp only [Bool.and_eq_true, decide_eq_true_eq, Bool.not_eq_true',
        List.isEmpty_eq_false] at h
      obtain ⟨⟨⟨hx, hloc⟩, hall⟩, hdot⟩ := h
      subst hx
      have hsplit := List.takeWhile_append_dropWhile emailChar s.data
      rw [hd] at hsplit
      rcases (hasInteriorDot_iff domain).mp hdot with ⟨B, C, hBC, hB, hC⟩
      subst hBC
      rw [List.all_eq_true] at hall
      refine ⟨s.data.takeWhile emailChar, B, C, hsplit.symm, hloc, hB, hC, ?_, ?_⟩
      · intro c hc
        rcases List.mem_append.mp hc with hcAB | hcC
        · rcases List.mem_append.mp hcAB with hcA | hcB
          · exact (isWsJS_of_emailChar c (List.mem_takeWhile_imp hcA)).1
          · exact (isWsJS_of_emailChar c
              (hall c (List.mem_append_left _ hcB))).1
        · exact (isWsJS_of_emailChar c
            (hall c (List.mem_append_right _ (List.mem_cons_of_mem _ hcC)))).1
      · have hcA : (s.data.takeWhile emailChar).count '@' = 0 :=
          List.count_eq_zero.mpr fun hm => by
            have := List.mem_takeWhile_imp hm
            rw [emailChar_at] at this
            cases this
        have hcD : (B ++ '.' :: C).count '@' = 0 :=
          List.count_eq_zero.mpr fun hm => by
            have := hall _ hm
            rw [emailChar_at] at this
            cases this
        rw [← hsplit, List.count_append, hcA, List.count_cons, hcD]
        simp

/-- A string of the spec shape is accepted. -/
theorem shape_imp_isValidEmail (s : String) (hs : emailShapeSpec s) :
    isValidEmail s = true := by
  rcases hs with ⟨A, B, C, he, hA, hB, hC, hws, hcount⟩
  rw [he] at hcount
  simp [List.count_append, List.count_cons] at hcount
  have h0A : A.count '@' = 0 := by omega
  have h0B : B.count '@' = 0 := by omega
  have h0C : C.count '@' = 0 := by omega
  have hnA : '@' ∉ A := List.count_eq_zero.mp h0A
  have hnB : '@' ∉ B := List.count_eq_zero.mp h0B
  have hnC : '@' ∉ C := List.count_eq_zero.mp h0C
  have hAall : ∀ a ∈ A, emailChar a = true := fun a ha =>
    emailChar_of a (hws a (List.mem_append_left C (List.mem_append_left B ha)))
      (fun hr => hnA (hr ▸ ha))
  have hsplit := takeWhile_dropWhile_split emailChar A '@' (B ++ '.' :: C)
    hAall emailChar_at
  have hdom : (B ++ '.' :: C).all emailChar = true := by
    rw [List.all_eq_true]
    intro x hx
    rcases List.mem_append.mp hx with hxB | hxC
    · exact emailChar_of x
        (hws x (List.mem_append_left C (List.mem_append_right A hxB)))
        (fun hr => hnB (hr ▸ hxB))
    · rcases List.mem_cons.mp hxC with rfl | hxC2
      · decide
      · exact emailChar_of x (hws x (List.mem_append_right _ hxC2))
          (fun hr => hnC (hr ▸ hxC2))
  unfold isValidEmail
  rw [he, hsplit.2, hsplit.1]
  simp only [Bool.and_eq_true, decide_eq_true_eq, Bool.not_eq_true',
    List.isEmpty_eq_false]
  exact ⟨⟨⟨trivial, hA⟩, hdom⟩, (hasInteriorDot_iff _).mpr ⟨B, C, rfl, hB, hC⟩⟩

/-! ## Claims -/

/-- C1: for every authenticated identity and poll id, when the fetched
poll is absent or its recorded owner differs from the caller, deletePoll
returns the authorization error, calls no backend delete, and leaves the
poll store unchanged. -/
theorem deletePoll_nonowner_rejected (u : Identity) (db : List Poll)
    (deleteErr : Option String) (id : String)
    (h : db.find? (fun p => p.id = id) = none ∨
      ∃ p, db.find? (fun p => p.id = id) = some p ∧ p.user_id ≠ u.id) :
    deletePoll (some u) db deleteErr id =
      ⟨some (.authz "You can only delete your own polls."), db, false⟩ := by
  unfold deletePoll
  rcases h with h | ⟨p, hp, hne⟩
  · rw [h]
  · rw [hp]
    simp [hne]

/-- Witness for C1: a caller who is not the recorded owner of the stored
poll is rejected and the store is untouched. -/
theorem deletePoll_nonowner_rejected_witness :
    deletePoll (some ⟨"bob"⟩) [⟨"p1", "alice", "q", ["a", "b"]⟩] none "p1" =
      ⟨some (.authz "You can only delete your own polls."),
        [⟨"p1", "alice", "q", ["a", "b"]⟩], false⟩ :=
  deletePoll_nonowner_rejected ⟨"bob"⟩ [⟨"p1", "alice", "q", ["a", "b"]⟩] none "p1"
    (Or.inr ⟨⟨"p1", "alice", "q", ["a", "b"]⟩, rfl, by decide⟩)

/-- C6: submitVote with no resolved identity and a succeeding backend
insert returns no error and appends exactly one vote row carrying a null
voter id and the raw option index, for every index whatsoever (the
embedding takes no poll store at all: the source never fetches the
referenced poll, so no range check can occur). -/
theorem submitVote_anonymous_unchecked (votes : List Vote) (pollId : String)
    (optionIndex : Int) :
    submitVote none votes none pollId optionIndex =
      ⟨none, votes ++ [⟨pollId, none, optionIndex⟩], true⟩ := rfl

/-- C7: sanitizeHTML strips the script block and keeps the trailing text,
and strips a lone tag entirely. -/
theorem sanitizeHTML_examples :
    sanitizeHTML "<script>alert(1)</script>hello" = "hello" ∧
    sanitizeHTML "<img src=x onerror=alert(1)>" = "" := ⟨rfl, rfl⟩

/-- C10: every character of a sanitizeFileName result is an ASCII letter,
an ASCII digit, a dot, a hyphen or an underscore, and the result never
contains two consecutive dots (hasDotDot is proven equivalent to the
existence of a consecutive-dots decomposition in hasDotDot_iff). -/
theorem sanitizeFileName_safe (s : String) :
    (sanitizeFileName s).data.all fileNameOutChar = true ∧
    hasDotDot (sanitizeFileName s).data = false := by
  refine ⟨?_, hasDotDot_replaceDotDot _⟩
  apply replaceDotDot_all _ (by decide)
  rw [List.all_eq_true]
  intro c hc
  rcases List.mem_map.mp hc with ⟨a, _, rfl⟩
  by_cases h : fileNameKeepChar a = true
  · rw [if_pos h]
    simp only [fileNameKeepChar, decide_eq_true_eq] at h
    simp only [fileNameOutChar, decide_eq_true_eq]
    tauto
  · rw [if_neg h]
    decide

/-- C8: isValidEmail accepts exactly the strings made of a run of
non-whitespace characters, an at sign, a run of non-whitespace characters,
a dot and a run of non-whitespace characters, with the at sign occurring
exactly once; in particular it accepts the address a at b dot co and
rejects the three listed malformed inputs. -/
theorem isValidEmail_shape :
    (∀ s : String, isValidEmail s = true ↔ emailShapeSpec s) ∧
    isValidEmail "a@b.co" = true ∧ isValidEmail "a@b" = false ∧
    isValidEmail "a.b@" = false ∧ isValidEmail "a b@c.d" = false :=
  ⟨fun s => ⟨isValidEmail_imp_shape s, shape_imp_isValidEmail s⟩,
    by decide, by decide, by decide, by decide⟩

/-- C9: starting from storage with no attempts recorded for the key, five
calls inside one window are all allowed, the sixth call inside the same
window is denied, and a later call made when every recorded timestamp is at
least the window length old is allowed again. -/
theorem checkRateLimit_window (key : String) (st0 : String → List Int)
    (t1 t2 t3 t4 t5 t6 t7 : Int)
    (h0 : st0 key = [])
    (h12 : t1 ≤ t2) (h23 : t2 ≤ t3) (h34 : t3 ≤ t4) (h45 : t4 ≤ t5)
    (h56 : t5 ≤ t6) (hwin : t6 - t1 < 60000) (hold : 60000 ≤ t7 - t5) :
    runCalls key 5 60000 [t1, t2, t3, t4, t5, t6, t7] st0 =
      [true, true, true, true, true, false, true] := by
  have f_all : ∀ (now : Int) (l : List Int), (∀ t ∈ l, now - t < 60000) →
      List.filter (fun t => decide (now - t < 60000)) l = l := fun now l h =>
    List.filter_eq_self.mpr fun a ha => by simpa using h a ha
  have f_none : ∀ (now : Int) (l : List Int), (∀ t ∈ l, ¬ (now - t < 60000)) →
      List.filter (fun t => decide (now - t < 60000)) l = [] := fun now l h =>
    List.filter_eq_nil_iff.mpr fun a ha => by simpa using h a ha
  have run_allow : ∀ (now : Int) (ts : List Int) (st : String → List Int)
      (l : List Int), st key = l → l.length < 5 →
      (∀ t ∈ l, now - t < 60000) →
      runCalls key 5 60000 (now :: ts) st
        = true :: runCalls key 5 60000 ts
            (fun k => if k = key then l ++ [now] else st k) := by
    intro now ts st l hst hlen hall
    simp only [runCalls]
    unfold checkRateLimit
    rw [hst, f_all now l hall, if_neg (by omega)]
  have run_deny : ∀ (now : Int) (ts : List Int) (st : String → List Int)
      (l : List Int), st key = l → 5 ≤ l.length →
      (∀ t ∈ l, now - t < 60000) →
      runCalls key 5 60000 (now :: ts) st
        = false :: runCalls key 5 60000 ts st := by
    intro now ts st l hst hlen hall
    simp only [runCalls]
    unfold checkRateLimit
    rw [hst, f_all now l hall, if_pos (by omega)]
  have run_reset : ∀ (now : Int) (ts : List Int) (st : String → List Int)
      (l : List Int), st key = l → (∀ t ∈ l, ¬ (now - t < 60000)) →
      runCalls key 5 60000 (now :: ts) st
        = true :: runCalls key 5 60000 ts
            (fun k => if k = key then [now] else st k) := by
    intro now ts st l hst hall
    simp only [runCalls]
    unfold checkRateLimit
    rw [hst, f_none now l hall, if_neg (by norm_num)]
    rfl
  rw [run_allow t1 _ st0 [] h0 (by norm_num) (by intro t ht; cases ht)]
  set s1 : String → List Int :=
    fun k => if k = key then ([] : List Int) ++ [t1] else st0 k with hs1
  have e1 : s1 key = [t1] := by rw [hs1]; simp
  rw [run_allow t2 _ s1 [t1] e1 (by norm_num)
    (by intro t ht; simp only [List.mem_singleton] at ht; omega)]
  set s2 : String → List Int :=
    fun k => if k = key then [t1] ++ [t2] else s1 k with hs2
  have e2 : s2 key = [t1, t2] := by rw [hs2]; simp
  rw [run_allow t3 _ s2 [t1, t2] e2 (by norm_num)
    (by intro t ht; simp only [List.mem_cons, List.mem_singleton,
      List.not_mem_nil, or_false] at ht; rcases ht with rfl | rfl <;> omega)]
  set s3 : String → List Int :=
    fun k => if k = key then [t1, t2] ++ [t3] else s2 k with hs3
  have e3 : s3 key = [t1, t2, t3] := by rw [hs3]; simp
  rw [run_allow t4 _ s3 [t1, t2, t3] e3 (by norm_num)
    (by intro t ht; simp only [List.mem_cons, List.mem_singleton,
      List.not_mem_nil, or_false] at ht
        rcases ht with rfl | rfl | rfl <;> omega)]
  set s4 : String → List Int :=
    fun k => if k = key then [t1, t2, t3] ++ [t4] else s3 k with hs4
  have e4 : s4 key = [t1, t2, t3, t4] := by rw [hs4]; simp
  rw [run_allow t5 _ s4 [t1, t2, t3, t4] e4 (by norm_num)
    (by intro t ht; simp only [List.mem_cons, List.mem_singleton,
      List.not_mem_nil, or_false] at ht
        rcases ht with rfl | rfl | rfl | rfl <;> omega)]
  set s5 : String → List Int :=
    fun k => if k = key then [t1, t2, t3, t4] ++ [t5] else s4 k with hs5
  have e5 : s5 key = [t1, t2, t3, t4, t5] := by rw [hs5]; simp
  rw [run_deny t6 _ s5 [t1, t2, t3, t4, t5] e5 (by norm_num)
    (by intro t ht; simp only [List.mem_cons, List.mem_singleton,
      List.not_mem_nil, or_false] at ht
        rcases ht with rfl | rfl | rfl | rfl | rfl <;> omega)]
  rw [run_reset t7 _ s5 [t1, t2, t3, t4, t5] e5
    (by intro t ht; simp only [List.mem_cons, List.mem_singleton,
      List.not_mem_nil, or_false] at ht
        rcases ht with rfl | rfl | rfl | rfl | rfl <;> omega)]
  rfl

/-- Witness for C9: concrete call times 0..5 and 60005 against an empty
storage produce exactly the allow and deny pattern of the claim. -/
theorem checkRateLimit_window_witness :
    runCalls "k" 5 60000 [0, 1, 2, 3, 4, 5, 60005] (fun _ => []) =
      [true, true, true, true, true, false, true] :=
  checkRateLimit_window "k" (fun _ => []) 0 1 2 3 4 5 60005 rfl
    (by decide) (by decide) (by decide) (by decide) (by decide)
    (by decide) (by decide)

/-- dedupKeepFirst is the identity on lists with no duplicates and no
element already seen. -/
theorem dedupKeepFirst_eq_self (l : List String) :
    ∀ seen, l.Nodup → (∀ x ∈ l, x ∉ seen) → dedupKeepFirst seen l = l := by
  induction l with
  | nil => intro seen _ _; rfl
  | cons a l ih =>
      intro seen hnd hdisj
      rw [dedupKeepFirst, if_neg (hdisj a (List.mem_cons_self a l))]
      congr 1
      apply ih (a :: seen) hnd.of_cons
      intro x hx
      simp only [List.mem_cons]
      rintro (rfl | hxs)
      · exact (List.nodup_cons.mp hnd).1 hx
      · exact hdisj x (List.mem_cons_of_mem a hx) hxs

/-- C2 (amended): for well-formed input (question nonempty and at most 500
code points after trimming, 2 to 10 options that are nonempty, pairwise
distinct and at most 200 code points after trimming), with a resolved
identity and a succeeding backend, createPoll returns no error and appends
exactly one poll owned by that identity whose persisted question and
options are the trimmed inputs transformed by the inline sanitization of
createPoll (script block removal and tag removal, the first two steps of
sanitizeHTML).  The claim as frozen asserts the persisted fields equal the
full sanitizeMarkup transform; the counterexample shows the javascript
scheme removal is not applied by createPoll. -/
theorem createPoll_valid_inserts (u : Identity) (db : List Poll)
    (newId : String) (question : String) (rawOptions : List String)
    (hq1 : jsTrim question ≠ "")
    (hq2 : (jsTrim question).length ≤ 500)
    (hlo : 2 ≤ rawOptions.length) (hhi : rawOptions.length ≤ 10)
    (hne : ∀ o ∈ rawOptions, jsTrim o ≠ "")
    (hnd : (rawOptions.map jsTrim).Nodup)
    (hcap : ∀ o ∈ rawOptions, (jsTrim o).length ≤ 200) :
    createPoll (some u) none db none newId question rawOptions =
      ⟨none,
        db ++ [⟨newId, u.id, sanitizeBasic (jsTrim question),
          rawOptions.map fun o => sanitizeBasic (jsTrim o)⟩],
        true⟩ := by
  have hfilter : rawOptions.filter (fun o => o ≠ "") = rawOptions :=
    List.filter_eq_self.mpr fun a ha =>
      decide_eq_true fun he => hne a ha (by rw [he]; rfl)
  have hfilter2 : rawOptions.filter (fun o => 0 < (jsTrim o).length) = rawOptions :=
    List.filter_eq_self.mpr fun a ha =>
      decide_eq_true (Nat.pos_of_ne_zero fun h0 =>
        hne a ha (string_length_eq_zero.mp h0))
  have hdedup : dedupKeepFirst [] (rawOptions.map jsTrim) = rawOptions.map jsTrim :=
    dedupKeepFirst_eq_self _ [] hnd (by simp)
  have hany : (rawOptions.map jsTrim).any (fun o => 200 < o.length) = false :=
    List.any_eq_false.mpr fun x hx => by
      rcases List.mem_map.mp hx with ⟨o, ho, rfl⟩
      simpa using hcap o ho
  simp only [createPoll, hfilter, hfilter2, hdedup]
  rw [if_neg (fun h => hq1 (string_length_eq_zero.mp h))]
  rw [if_neg (by omega)]
  rw [if_neg (by omega)]
  rw [if_neg (by omega)]
  rw [if_neg (by rw [List.length_map]; omega)]
  rw [if_neg (by rw [hany]; exact Bool.false_ne_true)]
  rw [List.map_map]
  rfl

/-- Witness for C2: a concrete well-formed creation inserts the expected
row. -/
theorem createPoll_valid_inserts_witness :
    createPoll (some ⟨"u1"⟩) none [] none "p9" "Best pet?" ["cat", "dog"] =
      ⟨none, [⟨"p9", "u1", "Best pet?", ["cat", "dog"]⟩], true⟩ := by
  have h := createPoll_valid_inserts ⟨"u1"⟩ [] "p9" "Best pet?" ["cat", "dog"]
    (by decide) (by decide) (by decide) (by decide) (by decide) (by decide)
    (by decide)
  rw [h]
  rfl

/-- Counterexample for C2 as frozen: the input question javascript-colon
alert(1) meets every precondition of the claim, createPoll persists it
unchanged, yet sanitizeMarkup of the trimmed question is alert(1), so the
persisted question differs from the sanitizeMarkup transform. -/
theorem createPoll_sanitizeMarkup_counterexample :
    (jsTrim "javascript:alert(1)" ≠ "" ∧
      (jsTrim "javascript:alert(1)").length ≤ 500 ∧
      (∀ o ∈ (["cat", "dog"] : List String), jsTrim o ≠ "" ∧ (jsTrim o).length ≤ 200) ∧
      ((["cat", "dog"] : List String).map jsTrim).Nodup) ∧
    createPoll (some ⟨"u1"⟩) none [] none "p9" "javascript:alert(1)" ["cat", "dog"] =
      ⟨none, [⟨"p9", "u1", "javascript:alert(1)", ["cat", "dog"]⟩], true⟩ ∧
    sanitizeHTML (jsTrim "javascript:alert(1)") = "alert(1)" ∧
    ("javascript:alert(1)" : String) ≠ "alert(1)" := by decide

/-- The option pipeline of createPoll (drop falsy entries, drop entries
blank after trimming, trim, keep first occurrences) equals the spec
normalization (trim, drop empties, de-duplicate). -/
theorem codeNormalize_eq (l : List String) :
    dedupKeepFirst []
      (((l.filter fun o => o ≠ "").filter fun o => 0 < (jsTrim o).length).map jsTrim)
      = normalizeOptions l := by
  unfold normalizeOptions
  congr 1
  rw [List.filter_filter]
  have hcong : ∀ x ∈ l,
      (decide (0 < (jsTrim x).length) && decide (x ≠ "")) = decide (jsTrim x ≠ "") := by
    intro x _
    by_cases hx : jsTrim x = ""
    · simp [hx]
    · have h1 : 0 < (jsTrim x).length :=
        Nat.pos_of_ne_zero fun h0 => hx (string_length_eq_zero.mp h0)
      have h2 : x ≠ "" := fun he => hx (by rw [he]; rfl)
      simp [h1, h2, hx]
  rw [List.filter_congr hcong, List.filter_map]
  rfl

/-- C4: whenever the options, after trimming, dropping empties and
de-duplicating, number fewer than 2, createPoll returns a validation
error, calls no backend insert, and leaves the poll store unchanged (the
validation returns all precede the identity lookup and the insert in the
source). -/
theorem createPoll_rejects_too_few (user : Option Identity)
    (userErr : Option String) (db : List Poll) (insertErr : Option String)
    (newId question : String) (rawOptions : List String)
    (h : (normalizeOptions rawOptions).length < 2) :
    (∃ m, (createPoll user userErr db insertErr newId question rawOptions).error
        = some (.validation m)) ∧
    (createPoll user userErr db insertErr newId question rawOptions).insertCalled
        = false ∧
    (createPoll user userErr db insertErr newId question rawOptions).polls = db := by
  simp only [createPoll]
  split_ifs with h1 h2 h3 h4 h5 h6
  · exact ⟨⟨_, rfl⟩, rfl, rfl⟩
  · exact ⟨⟨_, rfl⟩, rfl, rfl⟩
  · exact ⟨⟨_, rfl⟩, rfl, rfl⟩
  · exact ⟨⟨_, rfl⟩, rfl, rfl⟩
  · exact ⟨⟨_, rfl⟩, rfl, rfl⟩
  · exact ⟨⟨_, rfl⟩, rfl, rfl⟩
  · exfalso
    rw [codeNormalize_eq] at h5
    exact h5 h

/-- Witness for C4: two identical options collapse to one normalized
option and the creation is rejected with no insert. -/
theorem createPoll_rejects_too_few_witness :
    (∃ m, (createPoll none none [] none "p1" "q" ["a", "a"]).error
        = some (.validation m)) ∧
    (createPoll none none [] none "p1" "q" ["a", "a"]).insertCalled = false ∧
    (createPoll none none [] none "p1" "q" ["a", "a"]).polls = [] :=
  createPoll_rejects_too_few none none [] none "p1" "q" ["a", "a"] (by decide)

/-- Mapping a function that fixes every element of a list is the
identity. -/
theorem map_eq_self_of {α : Type} (l : List α) (f : α → α)
    (h : ∀ p ∈ l, f p = p) : l.map f = l := by
  induction l with
  | nil => rfl
  | cons a l ih =>
      rw [List.map_cons, h a (List.mem_cons_self a l),
        ih fun p hp => h p (List.mem_cons_of_mem a hp)]

/-- C3: the single backend update issued by updatePoll is filtered by the
poll id and the caller id together, so a caller who owns no poll matching
the target id modifies no row and receives a null error, not a distinct
authorization error, when the backend reports success. -/
theorem updatePoll_filter_miss_noop (u : Identity) (db : List Poll)
    (pollId question : String) (rawOptions : List String)
    (hq : question ≠ "")
    (hn : 2 ≤ (rawOptions.filter fun o => o ≠ "").length)
    (hown : ∀ p ∈ db, p.id = pollId → p.user_id ≠ u.id) :
    updatePoll (some u) none db none pollId question rawOptions =
      ⟨none, db, some (question, rawOptions.filter fun o => o ≠ "")⟩ := by
  simp only [updatePoll]
  rw [if_neg (by push_neg; exact ⟨hq, by omega⟩)]
  have hmap : db.map (fun p => if p.id = pollId ∧ p.user_id = u.id
      then { p with question := question, options := rawOptions.filter (fun o => o ≠ "") }
      else p) = db :=
    map_eq_self_of _ _ fun p hp => if_neg fun hc => hown p hp hc.1 hc.2
  rw [hmap]

/-- Witness for C3: updating a poll owned by someone else leaves the store
unchanged and returns no error while still issuing the filtered update. -/
theorem updatePoll_filter_miss_noop_witness :
    updatePoll (some ⟨"bob"⟩) none [⟨"p1", "alice", "q0", ["x", "y"]⟩] none
        "p1" "q2" ["a", "b"] =
      ⟨none, [⟨"p1", "alice", "q0", ["x", "y"]⟩], some ("q2", ["a", "b"])⟩ := by
  have h := updatePoll_filter_miss_noop ⟨"bob"⟩
    [⟨"p1", "alice", "q0", ["x", "y"]⟩] "p1" "q2" ["a", "b"]
    (by decide) (by decide) (by decide)
  rw [h]
  rfl

/-- Counterexample for C5 as frozen: a request with a nonempty question
and two nonempty options, made with no resolved identity, forwards
nothing to the backend and fails with an authentication error, so it is
false that every non-validation-failure case forwards the fields; and a
request supplying three options of which only one is nonempty is rejected
with the validation error even though at least two options were
supplied. -/
theorem updatePoll_verbatim_counterexample :
    decide (("q" : String) = "" ∨
      ((["a", "b"] : List String).filter fun o => o ≠ "").length < 2) = false ∧
    (updatePoll none none [] none "p1" "q" ["a", "b"]).updateArgs = none ∧
    (updatePoll none none [] none "p1" "q" ["a", "b"]).error
      = some (.auth "You must be logged in to update a poll.") ∧
    decide ((["a", "", ""] : List String).length < 2) = false ∧
    (updatePoll (some ⟨"u"⟩) none [] none "p1" "q" ["a", "", ""]).error
      = some (.validation "Please provide a question and at least two options.") := by
  decide

/-- C5 (amended): updatePoll returns a validation error exactly when the
question is the empty string or fewer than two of the supplied options are
nonempty; whatever it forwards to the backend is exactly the question and
the nonempty supplied options verbatim (no length caps, no sanitization,
no trimming, no de-duplication); and when validation passes and an
identity is resolved without error the update is issued with exactly those
fields. -/
theorem updatePoll_validation_exact (user : Option Identity)
    (userErr : Option String) (db : List Poll) (updateErr : Option String)
    (pollId question : String) (rawOptions : List String) :
    ((∃ m, (updatePoll user userErr db updateErr pollId question
        rawOptions).error = some (.validation m)) ↔
      (question = "" ∨ (rawOptions.filter fun o => o ≠ "").length < 2)) ∧
    ((updatePoll user userErr db updateErr pollId question
        rawOptions).updateArgs = none ∨
      (updatePoll user userErr db updateErr pollId question
        rawOptions).updateArgs
        = some (question, rawOptions.filter fun o => o ≠ "")) ∧
    (∀ u : Identity, userErr = none → user = some u →
      ¬ (question = "" ∨ (rawOptions.filter fun o => o ≠ "").length < 2) →
      (updatePoll user userErr db updateErr pollId question
        rawOptions).updateArgs
        = some (question, rawOptions.filter fun o => o ≠ "")) := by
  by_cases hc : question = "" ∨ (rawOptions.filter fun o => o ≠ "").length < 2
  · simp only [updatePoll, if_pos hc]
    exact ⟨⟨fun _ => hc, fun _ => ⟨_, rfl⟩⟩, Or.inl (by trivial),
      fun u hue hu hnc => absurd hc hnc⟩
  · simp only [updatePoll, if_neg hc]
    cases userErr with
    | some m =>
        refine ⟨⟨fun hex => ?_, fun hx => absurd hx hc⟩, Or.inl rfl,
          fun u hue hu hnc => by cases hue⟩
        rcases hex with ⟨m2, hm⟩
        simp at hm
    | none =>
        cases user with
        | none =>
            refine ⟨⟨fun hex => ?_, fun hx => absurd hx hc⟩, Or.inl rfl,
              fun u hue hu hnc => by cases hu⟩
            rcases hex with ⟨m2, hm⟩
            simp at hm
        | some u0 =>
            cases updateErr with
            | some m =>
                refine ⟨⟨fun hex => ?_, fun hx => absurd hx hc⟩, Or.inr rfl,
                  fun u hue hu hnc => rfl⟩
                rcases hex with ⟨m2, hm⟩
                simp at hm
            | none =>
                refine ⟨⟨fun hex => ?_, fun hx => absurd hx hc⟩, Or.inr rfl,
                  fun u hue hu hnc => rfl⟩
                rcases hex with ⟨m2, hm⟩
                simp at hm

/-- Witness for C5: a question containing markup and options with
duplicates and untrimmed whitespace are forwarded untouched. -/
theorem updatePoll_validation_exact_witness :
    ((∃ m, (updatePoll (some ⟨"u1"⟩) none [] none "p1" "q<b>x</b>"
        ["a", "a", " b "]).error = some (.validation m)) ↔
      (("q<b>x</b>" : String) = "" ∨
        ((["a", "a", " b "] : List String).filter fun o => o ≠ "").length < 2)) ∧
    (updatePoll (some ⟨"u1"⟩) none [] none "p1" "q<b>x</b>"
        ["a", "a", " b "]).updateArgs = some ("q<b>x</b>", ["a", "a", " b "]) := by
  have h := updatePoll_validation_exact (some ⟨"u1"⟩) none [] none "p1"
    "q<b>x</b>" ["a", "a", " b "]
  exact ⟨h.1, by
    have := h.2.2 ⟨"u1"⟩ rfl rfl (by decide)
    rw [this]
    rfl⟩
end AlxPolly
